import Mathlib

set_option maxRecDepth 100000

/-!
Shallow embedding of the Blockchain_Lab1 core (src/crypto.py, src/execution.py,
src/consensus.py, src/node.py) and proofs about the specified claims.

Python dicts are modelled as insertion-ordered association lists, Python sets of
strings as lists, Python ints as `Int`, Python str as `String`, bytes as
`List Nat`.  Exceptions are modelled with `Except`.  The Ed25519/SHA-256
primitives of the external `nacl`/`hashlib` libraries are a parameter
(`CryptoPrim`); everything the repository itself does (payload construction,
hex encoding and decoding, canonical JSON, the try/except structure) is
embedded from the source.
-/

namespace BlockchainLab

/-- Association-list lookup; keys are unique in every list we build (Python dict). -/
def alistGet? {α β : Type} [DecidableEq α] : List (α × β) → α → Option β
| [], _ => none
| p :: rest, k => if p.1 = k then some p.2 else alistGet? rest k

/-- Python dict assignment `d[k] = v`: replace in place, else append at the end. -/
def alistInsert {α β : Type} [DecidableEq α] : List (α × β) → α → β → List (α × β)
| [], k, v => [(k, v)]
| p :: rest, k, v => if p.1 = k then (k, v) :: rest else p :: alistInsert rest k v

/-- Python `d.setdefault(k, []).append(x)` on a dict of lists. -/
def alistPush {α β : Type} [DecidableEq α] : List (α × List β) → α → β → List (α × List β)
| [], k, x => [(k, [x])]
| p :: rest, k, x => if p.1 = k then (p.1, p.2 ++ [x]) :: rest else p :: alistPush rest k x

/-- Concatenation of a list of strings. -/
def concatStr : List String → String
| [] => ""
| s :: rest => s ++ concatStr rest

/-- Lowercase hex digit for a value below 16 (as produced by `bytes.hex()`). -/
def hexDigitChar (n : Nat) : Char :=
  if n < 10 then Char.ofNat (48 + n) else Char.ofNat (87 + n)

/-- Two lowercase hex digits of one byte. -/
def byteToHex (b : Nat) : String :=
  String.mk [hexDigitChar (b / 16), hexDigitChar (b % 16)]

/-- Python `bytes.hex()`: lowercase hex of a byte string. -/
def bytesToHex : List Nat → String
| [] => ""
| b :: rest => byteToHex b ++ bytesToHex rest

/-- Value of a single hex digit, upper or lower case, as accepted by `bytes.fromhex`. -/
def hexVal? (c : Char) : Option Nat :=
  if 48 ≤ c.toNat ∧ c.toNat ≤ 57 then some (c.toNat - 48)
  else if 97 ≤ c.toNat ∧ c.toNat ≤ 102 then some (c.toNat - 87)
  else if 65 ≤ c.toNat ∧ c.toNat ≤ 70 then some (c.toNat - 55)
  else none

/-- Pairs of hex digits to bytes; an odd tail or a non-hex digit is an error. -/
def fromhexChars : List Char → Option (List Nat)
| [] => some []
| [_] => none
| c1 :: c2 :: rest =>
  match hexVal? c1, hexVal? c2, fromhexChars rest with
  | some h, some l, some bs => some ((16 * h + l) :: bs)
  | _, _, _ => none

/-- Python `bytes.fromhex` (spaces between bytes are ignored). -/
def fromhex (s : String) : Option (List Nat) :=
  fromhexChars (s.data.filter (fun c => c.toNat ≠ 32))

/-- Four lowercase hex digits, as in a JSON `\uXXXX` escape. -/
def toHex4 (n : Nat) : String :=
  String.mk [hexDigitChar (n / 4096 % 16), hexDigitChar (n / 256 % 16),
             hexDigitChar (n / 16 % 16), hexDigitChar (n % 16)]

/-- One character of a JSON string as emitted by Python `json.dumps`
(default `ensure_ascii=True`): ASCII 0x20–0x7e pass through except quote and
backslash; named escapes for 8,9,10,12,13; everything else becomes a
`\uXXXX` escape (surrogate pairs above the BMP). -/
def escChar (c : Char) : String :=
  if c.toNat = 34 then "\\\""
  else if c.toNat = 92 then "\\\\"
  else if c.toNat = 8 then "\\b"
  else if c.toNat = 9 then "\\t"
  else if c.toNat = 10 then "\\n"
  else if c.toNat = 12 then "\\f"
  else if c.toNat = 13 then "\\r"
  else if c.toNat < 32 then "\\u" ++ toHex4 c.toNat
  else if c.toNat < 127 then String.mk [c]
  else if c.toNat < 65536 then "\\u" ++ toHex4 c.toNat
  else "\\u" ++ toHex4 (55296 + (c.toNat - 65536) / 1024)
       ++ "\\u" ++ toHex4 (56320 + (c.toNat - 65536) % 1024)

/-- JSON escape of every character of a string. -/
def escAll : List Char → String
| [] => ""
| c :: rest => escChar c ++ escAll rest

/-- A JSON string literal with quotes, as `json.dumps` emits it. -/
def jstrDump (s : String) : String := "\"" ++ escAll s.data ++ "\""

/-- The JSON-primitive values that occur in this repository's dicts. -/
inductive JPrim : Type
| jstr : String → JPrim
| jint : Int → JPrim
deriving DecidableEq

/-- Rendering of one JSON primitive (`json.dumps` renders a Python int via `repr`). -/
def jprimDump : JPrim → String
| .jstr s => jstrDump s
| .jint n => toString n

/-- Code-point-lexicographic strict comparison of character lists: the order
Python uses to compare strings. -/
def charsLt : List Char → List Char → Bool
| [], [] => false
| [], _ :: _ => true
| _ :: _, [] => false
| a :: as, b :: bs =>
  if a.toNat < b.toNat then true
  else if a.toNat = b.toNat then charsLt as bs
  else false

/-- Python `a < b` on strings. -/
def strLtb (a b : String) : Bool := charsLt a.data b.data

/-- Python `s.startswith(pre)`. -/
def strStarts (s pre : String) : Bool := pre.data.isPrefixOf s.data

/-- Insert one field into a key-sorted field list (keys are unique). -/
def insField (p : String × JPrim) : List (String × JPrim) → List (String × JPrim)
| [] => [p]
| q :: rest => if strLtb p.1 q.1 then p :: q :: rest else q :: insField p rest

/-- Sort the fields of an object by key, as `json.dumps(..., sort_keys=True)` does. -/
def sortFields : List (String × JPrim) → List (String × JPrim)
| [] => []
| p :: rest => insField p (sortFields rest)

/-- Comma-joined rendering of sorted fields. -/
def dumpFields : List (String × JPrim) → String
| [] => ""
| [p] => jstrDump p.1 ++ ":" ++ jprimDump p.2
| p :: q :: rest => jstrDump p.1 ++ ":" ++ jprimDump p.2 ++ "," ++ dumpFields (q :: rest)

/-- `json.dumps(d, sort_keys=True, separators=(",", ":"))` for a flat dict. -/
def dumpsObj (d : List (String × JPrim)) : String :=
  "\x7b" ++ dumpFields (sortFields d) ++ "\x7d"

/-- The values fed to `CryptoUtils.get_deterministic_bytes` in this repository:
a flat dict of strings and ints, or a plain string. -/
inductive PyMsg : Type
| mdict : List (String × JPrim) → PyMsg
| mstr : String → PyMsg
deriving DecidableEq

/-- `CryptoUtils.get_deterministic_bytes`: canonical JSON for dicts, UTF-8 of the
string itself otherwise (bytes are modelled by their decoded string content). -/
def get_deterministic_bytes : PyMsg → String
| .mdict d => dumpsObj d
| .mstr s => s

/-- The external cryptographic primitives (hashlib SHA-256 and nacl Ed25519),
kept abstract: `pubBytes`/`signBytes` are keyed by a secret-key index,
`keyAccepts` is the `VerifyKey` constructor's acceptance (32-byte keys for
real nacl), and `checkSig` is `VerifyKey.verify` folded to a boolean (both a
malformed signature and a failed verification make it false; the repository
catches the corresponding `ValueError`/`BadSignatureError` identically). -/
structure CryptoPrim : Type where
  sha256 : String → String
  pubBytes : Nat → List Nat
  signBytes : Nat → String → List Nat
  keyAccepts : List Nat → Bool
  checkSig : List Nat → List Nat → String → Bool

/-- `CryptoUtils.hash_data`. -/
def hash_data (P : CryptoPrim) (m : PyMsg) : String :=
  P.sha256 (get_deterministic_bytes m)

/-- The signed payload `utf8(context + ":" + chain_id + ":") + canonical_bytes(message)`
shared by `NodeKey.sign` and `Validator.verify`. -/
def signPayload (context chain_id : String) (m : PyMsg) : String :=
  context ++ ":" ++ chain_id ++ ":" ++ get_deterministic_bytes m

namespace NodeKey

/-- `NodeKey.get_public_key_hex`. -/
def get_public_key_hex (P : CryptoPrim) (sk : Nat) : String :=
  bytesToHex (P.pubBytes sk)

/-- `NodeKey.sign`: sign the domain-separated payload, return the signature hex. -/
def sign (P : CryptoPrim) (sk : Nat) (message : PyMsg) (context chain_id : String) : String :=
  bytesToHex (P.signBytes sk (signPayload context chain_id message))

end NodeKey

/-- The exceptions that the body of `Validator.verify` can raise. -/
inductive PyErr : Type
| badSignature : PyErr
| valueError : PyErr
deriving DecidableEq

/-- The try-block of `Validator.verify`: decode the public key hex and build the
`VerifyKey` (ValueError on bad hex or a rejected key), decode the signature hex
(ValueError on bad hex), then check the signature over the reconstructed
payload (BadSignatureError on failure). -/
def verifyBody (P : CryptoPrim) (public_key_hex signature_hex : String)
    (message : PyMsg) (context chain_id : String) : Except PyErr Bool :=
  match fromhex public_key_hex with
  | none => .error .valueError
  | some pk =>
    if P.keyAccepts pk then
      match fromhex signature_hex with
      | none => .error .valueError
      | some sg =>
        if P.checkSig pk sg (signPayload context chain_id message) then .ok true
        else .error .badSignature
    else .error .valueError

namespace Validator

/-- `Validator.verify`: the try-block with both exception kinds caught as `False`. -/
def verify (P : CryptoPrim) (public_key_hex signature_hex : String)
    (message : PyMsg) (context chain_id : String) : Bool :=
  match verifyBody P public_key_hex signature_hex message context chain_id with
  | .ok b => b
  | .error .badSignature => false
  | .error .valueError => false

end Validator

/-- `execution.Transaction`. -/
structure Transaction : Type where
  sender : String
  key : String
  value : String
  signature : String
deriving DecidableEq

/-- `Transaction.encode`. -/
def Transaction.encode (tx : Transaction) : PyMsg :=
  .mdict [("sender", .jstr tx.sender), ("key", .jstr tx.key), ("value", .jstr tx.value)]

/-- `execution.AppState`: the key/value map, a Python dict. -/
structure AppState : Type where
  data : List (String × String)
deriving DecidableEq

/-- `AppState.apply_tx`: ownership check, signature check under context "TX",
then `data[tx.key] = tx.value`.  Returns the Python boolean and the new state
(the state is unchanged on a rejection). -/
def AppState.apply_tx (P : CryptoPrim) (st : AppState) (tx : Transaction)
    (chain_id : String) : Bool × AppState :=
  if ¬ strStarts tx.key (tx.sender ++ "/") then (false, st)
  else if ¬ Validator.verify P tx.sender tx.signature tx.encode "TX" chain_id then (false, st)
  else (true, ⟨alistInsert st.data tx.key tx.value⟩)

/-- `AppState.get_commitment`: `hash_data` of the dict. -/
def AppState.get_commitment (P : CryptoPrim) (st : AppState) : String :=
  hash_data P (.mdict (st.data.map (fun p => (p.1, .jstr p.2))))

/-- `consensus.BlockHeader`. -/
structure BlockHeader : Type where
  parent_hash : String
  height : Int
  state_hash : String
  proposer : String
  signature : String
deriving DecidableEq

/-- `BlockHeader.encode` (the signature is excluded). -/
def BlockHeader.encode (h : BlockHeader) : PyMsg :=
  .mdict [("parent_hash", .jstr h.parent_hash), ("height", .jint h.height),
          ("state_hash", .jstr h.state_hash), ("proposer", .jstr h.proposer)]

/-- `BlockHeader.hash`: content address over the canonical encoding. -/
def BlockHeader.hash (P : CryptoPrim) (h : BlockHeader) : String :=
  hash_data P h.encode

/-- The transaction loop of `build_block` and `_finalize_block`: apply each
transaction in order, silently skipping the rejected ones. -/
def applyTxs (P : CryptoPrim) (st : AppState) (txs : List Transaction)
    (chain_id : String) : AppState :=
  txs.foldl (fun s tx => (AppState.apply_tx P s tx chain_id).2) st

/-- `execution.build_block`: execute the transactions on a fresh empty state,
commit, construct the header over the parent, and sign it under "HEADER". -/
def build_block (P : CryptoPrim) (parent_header : BlockHeader) (txs : List Transaction)
    (proposer_key : Nat) (chain_id : String) : BlockHeader × AppState :=
  let state := applyTxs P ⟨[]⟩ txs chain_id
  let state_hash := state.get_commitment P
  let header : BlockHeader :=
    ⟨parent_header.hash P, parent_header.height + 1, state_hash,
     NodeKey.get_public_key_hex P proposer_key, ""⟩
  ({ header with
     signature := NodeKey.sign P proposer_key header.encode "HEADER" chain_id }, state)

/-- `consensus.Vote`. -/
structure Vote : Type where
  validator : String
  height : Int
  block_hash : String
  phase : String
  signature : String
deriving DecidableEq

/-- `Vote.encode` (the signature is excluded). -/
def Vote.encode (v : Vote) : PyMsg :=
  .mdict [("validator", .jstr v.validator), ("height", .jint v.height),
          ("block_hash", .jstr v.block_hash), ("phase", .jstr v.phase)]

/-- `consensus.ConsensusState` (the Python set of validators is a list; only
its length and membership are ever used). -/
structure ConsensusState : Type where
  validator_set : List String
  chain_id : String
  prevotes : List (Int × List Vote)
  precommits : List (Int × List Vote)
  finalized_blocks : List (Int × String)
deriving DecidableEq

/-- One `tally.setdefault(bh, 0); tally[bh] += 1` step: first-occurrence order
is preserved exactly as a Python dict does. -/
def bumpTally : List (String × Nat) → String → List (String × Nat)
| [], bh => [(bh, 1)]
| p :: rest, bh => if p.1 = bh then (p.1, p.2 + 1) :: rest else p :: bumpTally rest bh

/-- The tally loop of `try_finalize`. -/
def tallyVotes (votes : List Vote) : List (String × Nat) :=
  votes.foldl (fun t v => bumpTally t v.block_hash) []

/-- The `for bh, count in tally.items()` loop: the first entry, in
first-occurrence order, whose count reaches the majority. -/
def firstQuorum : List (String × Nat) → Nat → Option String
| [], _ => none
| p :: rest, majority => if majority ≤ p.2 then some p.1 else firstQuorum rest majority

/-- `ConsensusState.try_finalize`.  Raising is modelled with `Except`; the
Python truthiness test `if prev and prev != bh` makes an empty-string
previous entry pass without raising. -/
def ConsensusState.try_finalize (st : ConsensusState) (height : Int) :
    Except String (ConsensusState × Option String) :=
  if ((alistGet? st.precommits height).getD []).isEmpty then
    match alistGet? st.finalized_blocks height with
    | some bh => .ok (st, some bh)
    | none => .ok (st, none)
  else
    match firstQuorum (tallyVotes ((alistGet? st.precommits height).getD []))
        (st.validator_set.length / 2 + 1) with
    | some bh =>
      match alistGet? st.finalized_blocks height with
      | some prev =>
        if prev ≠ "" ∧ prev ≠ bh then
          .error ("SAFETY VIOLATION: conflicting block at height " ++ toString height)
        else
          .ok ({ st with finalized_blocks := alistInsert st.finalized_blocks height bh }, some bh)
      | none =>
        .ok ({ st with finalized_blocks := alistInsert st.finalized_blocks height bh }, some bh)
    | none =>
      match alistGet? st.finalized_blocks height with
      | some bh => .ok (st, some bh)
      | none => .ok (st, none)

/-- `ConsensusState.handle_vote`: membership and signature gate, then store the
vote under its phase; a precommit immediately attempts finalization (whose
exception propagates); an unknown phase is accepted but stored nowhere. -/
def ConsensusState.handle_vote (P : CryptoPrim) (st : ConsensusState) (vote : Vote) :
    Except String (Bool × ConsensusState) :=
  if vote.validator ∉ st.validator_set then .ok (false, st)
  else if ¬ Validator.verify P vote.validator vote.signature vote.encode "VOTE" st.chain_id then
    .ok (false, st)
  else if vote.phase = "prevote" then
    .ok (true, { st with prevotes := alistPush st.prevotes vote.height vote })
  else if vote.phase = "precommit" then
    match ConsensusState.try_finalize
        { st with precommits := alistPush st.precommits vote.height vote } vote.height with
    | .error e => .error e
    | .ok (st2, _) => .ok (true, st2)
  else .ok (true, st)

/-- `node.BlockchainNode` (the secret key is its index in the crypto primitive;
logging has no effect on any modelled field and is dropped). -/
structure BlockchainNode : Type where
  node_id : String
  key : Nat
  public_key : String
  chain_id : String
  consensus : ConsensusState
  state : AppState
  blocks : List (String × BlockHeader)
  block_bodies : List (String × List Transaction)
  current_height : Int
  genesis : BlockHeader
  pending_txs : List Transaction
  seen_votes : List String
deriving DecidableEq

namespace BlockchainNode

/-- `BlockchainNode.__init__`: empty state, genesis pre-inserted at height 0
and pre-finalized. -/
def init (P : CryptoPrim) (node_id : String) (key : Nat) (validator_set : List String)
    (chain_id : String) : BlockchainNode :=
  let state : AppState := ⟨[]⟩
  let genesis : BlockHeader :=
    ⟨String.mk (List.replicate 64 (Char.ofNat 48)), 0, state.get_commitment P, "genesis", ""⟩
  let gh := genesis.hash P
  { node_id := node_id
    key := key
    public_key := NodeKey.get_public_key_hex P key
    chain_id := chain_id
    consensus := ⟨validator_set, chain_id, [], [], [(0, gh)]⟩
    state := state
    blocks := [(gh, genesis)]
    block_bodies := [(gh, [])]
    current_height := 0
    genesis := genesis
    pending_txs := []
    seen_votes := [] }

/-- `BlockchainNode.receive_transaction`: test against a copy of the current
state; the live state is never written. -/
def receive_transaction (P : CryptoPrim) (n : BlockchainNode) (tx : Transaction) :
    Bool × BlockchainNode :=
  let temp_state : AppState := ⟨n.state.data⟩
  if (AppState.apply_tx P temp_state tx n.chain_id).1 then
    (true, { n with pending_txs := n.pending_txs ++ [tx] })
  else (false, n)

/-- `BlockchainNode.propose_block`. -/
def propose_block (P : CryptoPrim) (n : BlockchainNode) (parent_hash : String) :
    Option BlockHeader × BlockchainNode :=
  match alistGet? n.blocks parent_hash with
  | none => (none, n)
  | some parent =>
    let hs := build_block P parent n.pending_txs n.key n.chain_id
    let header := hs.1
    (some header,
     { n with blocks := alistInsert n.blocks (header.hash P) header
              block_bodies := alistInsert n.block_bodies (header.hash P) n.pending_txs
              pending_txs := [] })

/-- `BlockchainNode.receive_block`: short-circuit on a known hash, require a
known parent, a valid proposer signature under "HEADER", and the state hash
recomputed by `build_block`; store on acceptance. -/
def receive_block (P : CryptoPrim) (n : BlockchainNode) (header : BlockHeader)
    (txs : List Transaction) : Bool × BlockchainNode :=
  if (alistGet? n.blocks (header.hash P)).isSome then (true, n)
  else
    match alistGet? n.blocks header.parent_hash with
    | none => (false, n)
    | some parent =>
      if ¬ Validator.verify P header.proposer header.signature header.encode "HEADER"
          n.chain_id then (false, n)
      else
        let recomputed := (build_block P parent txs n.key n.chain_id).1
        if recomputed.state_hash ≠ header.state_hash then (false, n)
        else
          (true, { n with blocks := alistInsert n.blocks (header.hash P) header
                          block_bodies := alistInsert n.block_bodies (header.hash P) txs })

/-- `BlockchainNode.create_vote`: build and self-sign a vote under "VOTE". -/
def create_vote (P : CryptoPrim) (n : BlockchainNode) (block_hash : String)
    (height : Int) (phase : String) : Vote :=
  let v : Vote := ⟨n.public_key, height, block_hash, phase, ""⟩
  { v with signature := NodeKey.sign P n.key v.encode "VOTE" n.chain_id }

/-- The seen-vote key `f"{validator}:{height}:{phase}:{block_hash}"`. -/
def voteId (v : Vote) : String :=
  v.validator ++ ":" ++ toString v.height ++ ":" ++ v.phase ++ ":" ++ v.block_hash

/-- `BlockchainNode._finalize_block`: a no-op when the block is not in the
store; otherwise replay its body against the live state and raise
`current_height`. -/
def _finalize_block (P : CryptoPrim) (n : BlockchainNode) (height : Int)
    (block_hash : String) : BlockchainNode :=
  match alistGet? n.blocks block_hash with
  | none => n
  | some _ =>
    let txs := (alistGet? n.block_bodies block_hash).getD []
    { n with state := applyTxs P n.state txs n.chain_id
             current_height := max n.current_height height }

/-- `BlockchainNode.receive_vote`: drop a seen key silently; otherwise delegate
to `handle_vote`, record the key on success, and when the vote's block just
shows finalized at its height (Python truthiness on the hash) run
`_finalize_block`. -/
def receive_vote (P : CryptoPrim) (n : BlockchainNode) (vote : Vote) :
    Except String (Bool × BlockchainNode) :=
  if voteId vote ∈ n.seen_votes then .ok (false, n)
  else
    match ConsensusState.handle_vote P n.consensus vote with
    | .error e => .error e
    | .ok (false, c1) => .ok (false, { n with consensus := c1 })
    | .ok (true, c1) =>
      let n1 := { n with consensus := c1, seen_votes := n.seen_votes ++ [voteId vote] }
      match alistGet? c1.finalized_blocks vote.height with
      | none => .ok (true, n1)
      | some fh =>
        if fh ≠ "" ∧ fh = vote.block_hash then
          .ok (true, n1._finalize_block P vote.height fh)
        else .ok (true, n1)

end BlockchainNode

/-- Functional soundness of the external Ed25519 primitive, as assumed of nacl:
byte outputs are bytes, generated keys are accepted, honestly produced
signatures verify, and a signature produced over one payload verifies over no
other payload. -/
structure CryptoPrim.Sound (P : CryptoPrim) : Prop where
  pub_lt : ∀ sk, ∀ b ∈ P.pubBytes sk, b < 256
  sig_lt : ∀ sk p, ∀ b ∈ P.signBytes sk p, b < 256
  key_ok : ∀ sk, P.keyAccepts (P.pubBytes sk) = true
  complete : ∀ sk p, P.checkSig (P.pubBytes sk) (P.signBytes sk p) p = true
  binding : ∀ sk p q, P.checkSig (P.pubBytes sk) (P.signBytes sk p) q = true → q = p

/-- Three-byte big-endian encoding of each character's code point (code points
are below 0x110000, so three bytes suffice). -/
def encChars : List Char → List Nat
| [] => []
| c :: rest => c.toNat / 65536 :: c.toNat / 256 % 256 :: c.toNat % 256 :: encChars rest

/-- A concrete sound instantiation of the primitive, used to evaluate the
embedded code on explicit inputs: a public key is the secret index followed by
zero padding, a signature is the secret index followed by the encoded payload,
and verification recomputes the signature. -/
def toyPrim : CryptoPrim where
  sha256 s := "H" ++ s
  pubBytes sk := (sk % 256) :: List.replicate 31 0
  signBytes sk p := (sk % 256) :: encChars p.data
  keyAccepts pk := pk.length == 32
  checkSig pk sg p := sg == pk.headD 0 :: encChars p.data

/-- Node states reachable from a freshly initialised node by delivering votes
through the public `receive_vote` interface. -/
inductive Reachable (P : CryptoPrim) : BlockchainNode → Prop
| init (node_id : String) (key : Nat) (validator_set : List String) (chain_id : String) :
    Reachable P (BlockchainNode.init P node_id key validator_set chain_id)
| vote (n : BlockchainNode) (v : Vote) (r : Bool) (m : BlockchainNode) :
    Reachable P n → BlockchainNode.receive_vote P n v = .ok (r, m) → Reachable P m

/-- The node after a delivered vote (the node itself when delivery raised). -/
def stepVote (P : CryptoPrim) (n : BlockchainNode) (v : Vote) : BlockchainNode :=
  match BlockchainNode.receive_vote P n v with
  | .ok pr => pr.2
  | .error _ => n

/-- The precommit list stored at a height (`precommits.get(height, [])`). -/
def preBucket (st : ConsensusState) (h : Int) : List Vote :=
  (alistGet? st.precommits h).getD []

/-- The prevote list stored at a height. -/
def prvBucket (st : ConsensusState) (h : Int) : List Vote :=
  (alistGet? st.prevotes h).getD []

/-- Number of votes in a list for one block hash: the tally count. -/
def countBH (votes : List Vote) (bh : String) : Nat :=
  (votes.filter (fun v => v.block_hash == bh)).length

/-- Number of votes in a list by one validator for one block hash. -/
def countVB (votes : List Vote) (val bh : String) : Nat :=
  (votes.filter (fun v => v.validator == val && v.block_hash == bh)).length

/-- The strict-majority quorum `floor(N/2) + 1`. -/
def majorityOf (st : ConsensusState) : Nat := st.validator_set.length / 2 + 1

/-- The vote list a phase string selects: the two real phases have buckets,
any other phase stores nothing. -/
def phaseBucket (st : ConsensusState) (ph : String) (h : Int) : List Vote :=
  if ph = "prevote" then prvBucket st h
  else if ph = "precommit" then preBucket st h
  else []

/-- A node's tally for one (validator, height, phase, block_hash) tuple. -/
def tallyOf (n : BlockchainNode) (val : String) (h : Int) (ph bh : String) : Nat :=
  countVB (phaseBucket n.consensus ph h) val bh

/-- No two votes in a list agree on validator and block hash. -/
def nodupVB (votes : List Vote) : Prop :=
  votes.Pairwise (fun a b => ¬(a.validator = b.validator ∧ a.block_hash = b.block_hash))

/-- The vote-ingress invariant a node maintains: every stored vote sits in the
bucket of its own height and phase, comes from a validator of the set, has its
seen-key recorded, and no (validator, block hash) pair repeats in a bucket. -/
structure NodeInv (n : BlockchainNode) : Prop where
  pre_mem : ∀ h, ∀ v ∈ preBucket n.consensus h,
    v.height = h ∧ v.phase = "precommit" ∧ v.validator ∈ n.consensus.validator_set ∧
    BlockchainNode.voteId v ∈ n.seen_votes
  pre_nodup : ∀ h, nodupVB (preBucket n.consensus h)
  prv_mem : ∀ h, ∀ v ∈ prvBucket n.consensus h,
    v.height = h ∧ v.phase = "prevote" ∧ v.validator ∈ n.consensus.validator_set ∧
    BlockchainNode.voteId v ∈ n.seen_votes
  prv_nodup : ∀ h, nodupVB (prvBucket n.consensus h)

/-- Chain id of the concrete runs. -/
def chainC : String := "c"

/-- Public key hex of the concrete validator (secret index 7). -/
def pubHex7 : String := NodeKey.get_public_key_hex toyPrim 7

/-- A fresh single-validator node over the toy primitive. -/
def nodeA : BlockchainNode := BlockchainNode.init toyPrim "n" 7 [pubHex7] chainC

/-- A self-signed precommit of the single validator for hash "h1" at height 1. -/
def voteH1 : Vote := BlockchainNode.create_vote toyPrim nodeA "h1" 1 "precommit"

/-- A self-signed precommit of the same validator for hash "h2" at height 1. -/
def voteH2 : Vote := BlockchainNode.create_vote toyPrim nodeA "h2" 1 "precommit"

/-- The node after the "h1" precommit was delivered. -/
def nodeA1 : BlockchainNode := stepVote toyPrim nodeA voteH1

/-- The node after both conflicting precommits were delivered. -/
def nodeA2 : BlockchainNode := stepVote toyPrim nodeA1 voteH2

/-- A raw precommit as inserted directly into a consensus state. -/
def ceVote1 : Vote := ⟨"A", 1, "h1", "precommit", ""⟩

/-- A second raw precommit by the same validator for a different hash. -/
def ceVote2 : Vote := ⟨"A", 1, "h2", "precommit", ""⟩

/-- A consensus state in which "h1" is finalized at height 1 while the
precommit tally holds one vote each for "h1" and "h2" under a one-validator
set (quorum 1): both hashes meet the quorum. -/
def ceState : ConsensusState :=
  ⟨["A"], "c", [], [(1, [ceVote1, ceVote2])], [(1, "h1")]⟩

/-- A transaction whose key does not start with its sender: rejected by the
ownership check. -/
def txBad : Transaction := ⟨"A", "B/x", "v", ""⟩

/-- An empty consensus state over the single toy validator. -/
def stW : ConsensusState := ⟨[pubHex7], chainC, [], [], []⟩

/-- A correctly signed vote of the toy validator whose phase "commit" is
neither "prevote" nor "precommit". -/
def vW : Vote := BlockchainNode.create_vote toyPrim nodeA "b" 1 "commit"

/-- A raw precommit of validator "A" for "hX" at height 1. -/
def wVoteA : Vote := ⟨"A", 1, "hX", "precommit", ""⟩

/-- A raw precommit of validator "B" for "hX" at height 1. -/
def wVoteB : Vote := ⟨"B", 1, "hX", "precommit", ""⟩

/-- A three-validator consensus state holding two precommits for "hX" at
height 1 (a quorum) and no finalized entry. -/
def wSt : ConsensusState := ⟨["A", "B", "C"], "c", [], [(1, [wVoteA, wVoteB])], []⟩

/-- The conflict condition that actually drives the safety-violation branch:
the first block hash, in first-occurrence order, whose tally meets the quorum
differs from a non-empty previously finalized hash. -/
def conflictAt (st : ConsensusState) (h : Int) : Prop :=
  ∃ bh prev,
    firstQuorum (tallyVotes ((alistGet? st.precommits h).getD []))
      (st.validator_set.length / 2 + 1) = some bh ∧
    alistGet? st.finalized_blocks h = some prev ∧ prev ≠ "" ∧ prev ≠ bh

end BlockchainLab

deriving instance DecidableEq for Except

namespace BlockchainLab

theorem alistGet?_push_self {α β : Type} [DecidableEq α] (d : List (α × List β)) (k : α)
    (x : β) : alistGet? (alistPush d k x) k = some ((alistGet? d k).getD [] ++ [x]) := by
  induction d with
  | nil => simp [alistPush, alistGet?]
  | cons p rest ih =>
    by_cases h : p.1 = k
    · simp [alistPush, alistGet?, h]
    · simp [alistPush, alistGet?, h, ih]

theorem alistGet?_push_other {α β : Type} [DecidableEq α] (d : List (α × List β)) (k k' : α)
    (x : β) (h : k' ≠ k) : alistGet? (alistPush d k x) k' = alistGet? d k' := by
  have hk : ¬ (k = k') := fun he => h he.symm
  induction d with
  | nil => simp [alistPush, alistGet?, hk]
  | cons p rest ih =>
    by_cases hp : p.1 = k
    · simp [alistPush, alistGet?, hp, hk]
    · by_cases hp2 : p.1 = k' <;> simp [alistPush, alistGet?, hp, hp2, h, ih]

theorem countVB_le_one (L : List Vote) (hnd : nodupVB L) (val bh : String) :
    countVB L val bh ≤ 1 := by
  induction L with
  | nil => simp [countVB]
  | cons a L ih =>
    rcases List.pairwise_cons.mp hnd with ⟨ha, hL⟩
    by_cases hm : a.validator = val ∧ a.block_hash = bh
    · have hnil : L.filter (fun v => v.validator == val && v.block_hash == bh) = [] := by
        refine List.filter_eq_nil_iff.mpr (fun b hb hbeq => ?_)
        simp only [Bool.and_eq_true, beq_iff_eq] at hbeq
        exact ha b hb ⟨hm.1.trans hbeq.1.symm, hm.2.trans hbeq.2.symm⟩
      simp [countVB, List.filter_cons, hm.1, hm.2, hnil]
    · have : ¬ ((a.validator == val && a.block_hash == bh) = true) := by
        simpa [Bool.and_eq_true, beq_iff_eq] using hm
      simpa [countVB, List.filter_cons, this] using ih hL

theorem countBH_pair_le (L : List Vote) (b1 b2 : String) (hne : b1 ≠ b2) :
    countBH L b1 + countBH L b2 ≤ L.length := by
  induction L with
  | nil => simp [countBH]
  | cons a L ih =>
    have expand : ∀ b, countBH (a :: L) b =
        (if a.block_hash = b then 1 else 0) + countBH L b := by
      intro b
      by_cases hb : a.block_hash = b <;> simp [countBH, List.filter_cons, hb, Nat.add_comm]
    rw [expand, expand, List.length_cons]
    by_cases h1 : a.block_hash = b1
    · have h2 : ¬ (a.block_hash = b2) := fun he => hne (h1.symm.trans he)
      rw [if_pos h1, if_neg h2]
      omega
    · by_cases h2 : a.block_hash = b2
      · rw [if_neg h1, if_pos h2]
        omega
      · rw [if_neg h1, if_neg h2]
        omega

theorem char_toNat_lt (c : Char) : c.toNat < 1114112 := by
  have h : c.val.toNat < 55296 ∨ (57343 < c.val.toNat ∧ c.val.toNat < 1114112) := c.valid
  have : c.toNat = c.val.toNat := rfl
  omega

theorem hexVal?_hexDigitChar : ∀ n < 16, hexVal? (hexDigitChar n) = some n := by decide

theorem hexDigitChar_ne_space : ∀ n < 16, (hexDigitChar n).toNat ≠ 32 := by decide

theorem bytesToHex_data (b : Nat) (rest : List Nat) :
    (bytesToHex (b :: rest)).data =
      hexDigitChar (b / 16) :: hexDigitChar (b % 16) :: (bytesToHex rest).data := by
  show (byteToHex b ++ bytesToHex rest).data = _
  rw [String.data_append]
  rfl

theorem fromhex_bytesToHex (bs : List Nat) (h : ∀ b ∈ bs, b < 256) :
    fromhex (bytesToHex bs) = some bs := by
  unfold fromhex
  induction bs with
  | nil => rfl
  | cons b rest ih =>
    have hb : b < 256 := h b (by simp)
    have hhi : b / 16 < 16 := by omega
    have hlo : b % 16 < 16 := by omega
    rw [bytesToHex_data]
    rw [List.filter_cons_of_pos (by simpa using hexDigitChar_ne_space _ hhi),
        List.filter_cons_of_pos (by simpa using hexDigitChar_ne_space _ hlo)]
    show fromhexChars (_ :: _ :: _) = _
    rw [fromhexChars]
    rw [hexVal?_hexDigitChar _ hhi, hexVal?_hexDigitChar _ hlo,
        ih (fun x hx => h x (by simp [hx]))]
    have : 16 * (b / 16) + b % 16 = b := by omega
    simp [this]

theorem encChars_lt (l : List Char) : ∀ b ∈ encChars l, b < 256 := by
  induction l with
  | nil => simp [encChars]
  | cons c rest ih =>
    intro b hb
    have hc := char_toNat_lt c
    simp only [encChars, List.mem_cons] at hb
    rcases hb with h | h | h | h
    · omega
    · omega
    · omega
    · exact ih b h

theorem encChars_inj : ∀ l1 l2 : List Char, encChars l1 = encChars l2 → l1 = l2
  | [], [], _ => rfl
  | [], _ :: _, h => by simp [encChars] at h
  | _ :: _, [], h => by simp [encChars] at h
  | c1 :: r1, c2 :: r2, h => by
    simp only [encChars, List.cons.injEq] at h
    obtain ⟨h1, h2, h3, h4⟩ := h
    have hc : c1.toNat = c2.toNat := by omega
    have hch : c1 = c2 := by
      have := congrArg Char.ofNat hc
      rwa [Char.ofNat_toNat, Char.ofNat_toNat] at this
    rw [hch, encChars_inj r1 r2 h4]

theorem toySound : toyPrim.Sound := by
  constructor
  · intro sk b hb
    simp only [toyPrim, List.mem_cons, List.mem_replicate] at hb
    rcases hb with h | ⟨-, h⟩ <;> omega
  · intro sk p b hb
    simp only [toyPrim, List.mem_cons] at hb
    rcases hb with h | h
    · omega
    · exact encChars_lt p.data b h
  · intro sk
    simp [toyPrim]
  · intro sk p
    simp [toyPrim]
  · intro sk p q h
    simp only [toyPrim, List.headD, beq_iff_eq, List.cons.injEq, true_and] at h
    exact String.ext (encChars_inj q.data p.data h.symm)

theorem verify_sign_iff (P : CryptoPrim) (hs : P.Sound) (sk : Nat) (m m2 : PyMsg)
    (c ch c2 ch2 : String) :
    Validator.verify P (NodeKey.get_public_key_hex P sk) (NodeKey.sign P sk m c ch)
      m2 c2 ch2 = true ↔ signPayload c2 ch2 m2 = signPayload c ch m := by
  unfold Validator.verify verifyBody NodeKey.get_public_key_hex NodeKey.sign
  rw [fromhex_bytesToHex _ (hs.pub_lt sk), fromhex_bytesToHex _ (hs.sig_lt sk _)]
  simp only [hs.key_ok sk, if_true]
  cases hc : P.checkSig (P.pubBytes sk) (P.signBytes sk (signPayload c ch m))
      (signPayload c2 ch2 m2) <;> simp only [hc, if_true, if_false, Bool.false_eq_true,
        iff_false, false_iff]
  · intro h
    rw [h, hs.complete sk] at hc
    cases hc
  · exact iff_of_true trivial (hs.binding sk _ _ hc)

theorem append_cancel_r {α : Type} (a b c : List α) (h : a ++ c = b ++ c) : a = b := by
  have hl : a.length = b.length := by
    have := congrArg List.length h
    simp only [List.length_append] at this
    omega
  exact (List.append_inj h hl).1

theorem colon_splice (t : List Char) : ∀ (l1 l2 m1 m2 : List Char), ':' ∉ l1 → ':' ∉ l2 →
    l1 ++ ':' :: (m1 ++ ':' :: t) = l2 ++ ':' :: (m2 ++ ':' :: t) → l1 = l2 ∧ m1 = m2 := by
  intro l1
  induction l1 with
  | nil =>
    intro l2 m1 m2 h1 h2 h
    cases l2 with
    | nil =>
      simp only [List.nil_append, List.cons.injEq, true_and] at h
      exact ⟨rfl, append_cancel_r _ _ _ h⟩
    | cons c l2 =>
      simp only [List.nil_append, List.cons_append, List.cons.injEq] at h
      exact absurd (by rw [h.1]; exact List.mem_cons_self _ _) h2
  | cons c l1 ih =>
    intro l2 m1 m2 h1 h2 h
    cases l2 with
    | nil =>
      simp only [List.cons_append, List.nil_append, List.cons.injEq] at h
      exact absurd (by rw [← h.1]; exact List.mem_cons_self _ _) h1
    | cons d l2 =>
      simp only [List.cons_append, List.cons.injEq] at h
      have hm1 : ':' ∉ l1 := fun hx => h1 (List.mem_cons_of_mem _ hx)
      have hm2 : ':' ∉ l2 := fun hx => h2 (List.mem_cons_of_mem _ hx)
      obtain ⟨hr1, hr2⟩ := ih l2 m1 m2 hm1 hm2 h.2
      exact ⟨by rw [h.1, hr1], hr2⟩

theorem signPayload_inj (c1 ch1 c2 ch2 : String) (m : PyMsg) (h1 : ':' ∉ c1.data)
    (h2 : ':' ∉ c2.data) (he : signPayload c1 ch1 m = signPayload c2 ch2 m) :
    c1 = c2 ∧ ch1 = ch2 := by
  have hd := congrArg String.data he
  simp only [signPayload, String.data_append] at hd
  simp only [List.append_assoc, List.singleton_append] at hd
  obtain ⟨ha, hb⟩ := colon_splice _ _ _ _ _ h1 h2 hd
  exact ⟨String.ext ha, String.ext hb⟩

/-- Claim C3 (amended): a signature produced under one (context, chain_id) pair never
verifies under a different pair, provided the two context strings are
colon-free (as the three contexts "TX", "HEADER", "VOTE" used by the core
are); without that restriction the claim is false, see the counterexample. -/
theorem C3_domain_separation (P : CryptoPrim) (hs : P.Sound) (sk : Nat) (m : PyMsg)
    (c1 ch1 c2 ch2 : String) (hc1 : ':' ∉ c1.data) (hc2 : ':' ∉ c2.data)
    (hne : (c1, ch1) ≠ (c2, ch2)) :
    Validator.verify P (NodeKey.get_public_key_hex P sk) (NodeKey.sign P sk m c1 ch1)
      m c2 ch2 = false := by
  cases hv : Validator.verify P (NodeKey.get_public_key_hex P sk)
      (NodeKey.sign P sk m c1 ch1) m c2 ch2
  · rfl
  · exfalso
    have hp := (verify_sign_iff P hs sk m m c1 ch1 c2 ch2).mp hv
    obtain ⟨ha, hb⟩ := signPayload_inj c2 ch2 c1 ch1 m hc2 hc1 hp
    exact hne (by rw [ha, hb])

/-- Claim C3 (counterexample): splicing the colon separator lets the pair
("A:B", "C") collide with the distinct pair ("A", "B:C"): the signature made
under the first verifies under the second, so the claim as stated over every
two distinct (context, chain_id) pairs is false. -/
theorem C3_counterexample :
    Validator.verify toyPrim (NodeKey.get_public_key_hex toyPrim 1)
      (NodeKey.sign toyPrim 1 (.mstr "m") "A:B" "C") (.mstr "m") "A" "B:C" = true ∧
    (("A:B", "C") : String × String) ≠ ("A", "B:C") := by
  constructor
  · decide
  · decide

/-- Claim C3 (witness): the amended theorem applied to the colon-free contexts
"TX" and "VOTE" over the same chain id. -/
theorem C3_witness :
    Validator.verify toyPrim (NodeKey.get_public_key_hex toyPrim 2)
      (NodeKey.sign toyPrim 2 (.mstr "x") "TX" "a") (.mstr "x") "VOTE" "a" = false :=
  C3_domain_separation toyPrim toySound 2 (.mstr "x") "TX" "a" "VOTE" "a"
    (by decide) (by decide) (by decide)

/-- Claim C8: `Validator.verify` is a total boolean: every exception of its body
(malformed hex, rejected key, failed check) is caught and returns false, a
normally returned boolean is passed through, and it returns true exactly when
both hex decodes succeed, the key is accepted and the signature checks out. -/
theorem C8_verify_total (P : CryptoPrim) (pub sig : String) (m : PyMsg) (c ch : String) :
    (∀ e, verifyBody P pub sig m c ch = .error e →
      Validator.verify P pub sig m c ch = false) ∧
    (∀ b, verifyBody P pub sig m c ch = .ok b → Validator.verify P pub sig m c ch = b) ∧
    (Validator.verify P pub sig m c ch = true ↔
      ∃ pk sg, fromhex pub = some pk ∧ P.keyAccepts pk = true ∧ fromhex sig = some sg ∧
        P.checkSig pk sg (signPayload c ch m) = true) := by
  refine ⟨?_, ?_, ?_⟩
  · intro e he
    unfold Validator.verify
    rw [he]
    cases e <;> rfl
  · intro b hb
    unfold Validator.verify
    rw [hb]
  · unfold Validator.verify verifyBody
    cases hp : fromhex pub with
    | none => simp [hp]
    | some pk =>
      cases hk : P.keyAccepts pk with
      | false => simp [hk]
      | true =>
        cases hsg : fromhex sig with
        | none => simp [hk, hsg]
        | some sg =>
          cases hcs : P.checkSig pk sg (signPayload c ch m) with
          | false => simp [hk, hcs]
          | true => simp [hk, hcs]

/-- Claim C8 (witness): a malformed public-key hex makes the body raise ValueError
and verify return false. -/
theorem C8_witness : Validator.verify toyPrim "zz" "00" (.mstr "") "TX" "c" = false :=
  (C8_verify_total toyPrim "zz" "00" (.mstr "") "TX" "c").1 .valueError rfl

/-- Claim C4: `build_block` links to the parent by hash, increments the parent's
height, commits the result of applying the transactions in order to an empty
application state (not the parent's post-state), returns that state, sets the
proposer to the signer's public key, and signs the header's canonical
encoding (signature excluded) under context "HEADER". -/
theorem C4_build_block (P : CryptoPrim) (parent : BlockHeader) (txs : List Transaction)
    (proposer_key : Nat) (chain_id : String) :
    (build_block P parent txs proposer_key chain_id).1.parent_hash = parent.hash P ∧
    (build_block P parent txs proposer_key chain_id).1.height = parent.height + 1 ∧
    (build_block P parent txs proposer_key chain_id).1.state_hash =
      AppState.get_commitment P (applyTxs P ⟨[]⟩ txs chain_id) ∧
    (build_block P parent txs proposer_key chain_id).2 = applyTxs P ⟨[]⟩ txs chain_id ∧
    (build_block P parent txs proposer_key chain_id).1.proposer =
      NodeKey.get_public_key_hex P proposer_key ∧
    (build_block P parent txs proposer_key chain_id).1.signature =
      NodeKey.sign P proposer_key
        (BlockHeader.encode ⟨parent.hash P, parent.height + 1,
          AppState.get_commitment P (applyTxs P ⟨[]⟩ txs chain_id),
          NodeKey.get_public_key_hex P proposer_key, ""⟩) "HEADER" chain_id :=
  ⟨rfl, rfl, rfl, rfl, rfl, rfl⟩

/-- Claim C7: `receive_transaction` never changes the live application state, and it
appends the transaction to the pending buffer exactly when it returns true. -/
theorem C7_receive_transaction (P : CryptoPrim) (n : BlockchainNode) (tx : Transaction) :
    ((BlockchainNode.receive_transaction P n tx).2.state = n.state) ∧
    ((BlockchainNode.receive_transaction P n tx).1 = true →
      (BlockchainNode.receive_transaction P n tx).2.pending_txs = n.pending_txs ++ [tx]) ∧
    ((BlockchainNode.receive_transaction P n tx).1 = false →
      (BlockchainNode.receive_transaction P n tx).2 = n) := by
  cases h : (AppState.apply_tx P ⟨n.state.data⟩ tx n.chain_id).1 <;>
    simp [BlockchainNode.receive_transaction, h]

/-- Claim C7 (witness): a transaction violating key ownership is rejected and the
node is unchanged. -/
theorem C7_witness : (BlockchainNode.receive_transaction toyPrim nodeA txBad).2 = nodeA :=
  (C7_receive_transaction toyPrim nodeA txBad).2.2 (by decide)

/-- Claim C9: a vote from a validator of the set with a valid "VOTE" signature whose
phase is neither "prevote" nor "precommit" is accepted (`handle_vote` returns
true) while the whole consensus state — prevotes, precommits and finalized
blocks — is left unchanged. -/
theorem C9_unknown_phase (P : CryptoPrim) (st : ConsensusState) (v : Vote)
    (h1 : v.validator ∈ st.validator_set)
    (h2 : Validator.verify P v.validator v.signature v.encode "VOTE" st.chain_id = true)
    (h3 : v.phase ≠ "prevote") (h4 : v.phase ≠ "precommit") :
    ConsensusState.handle_vote P st v = .ok (true, st) := by
  simp [ConsensusState.handle_vote, h1, h2, h3, h4]

/-- Claim C9 (witness): the toy validator's correctly signed vote with phase
"commit" is accepted with the state unchanged. -/
theorem C9_witness : ConsensusState.handle_vote toyPrim stW vW = .ok (true, stW) :=
  C9_unknown_phase toyPrim stW vW (by decide) (by decide) (by decide) (by decide)

/-- Claim C10: `_finalize_block` on a block hash absent from the block store returns
the node unchanged — neither the application state nor `current_height`
moves; concretely, after one precommit for the unknown hash "h1" the node has
height 1 finalized in consensus while its state and `current_height` are
still those of height 0. -/
theorem C10_finalize_missing_block :
    (∀ (P : CryptoPrim) (n : BlockchainNode) (h : Int) (bh : String),
      alistGet? n.blocks bh = none → BlockchainNode._finalize_block P n h bh = n) ∧
    (alistGet? nodeA1.consensus.finalized_blocks 1 = some "h1" ∧
     alistGet? nodeA1.blocks "h1" = none ∧
     nodeA1.current_height = 0 ∧ nodeA1.state = nodeA.state) := by
  constructor
  · intro P n h bh hb
    unfold BlockchainNode._finalize_block
    rw [hb]
  · exact ⟨by decide, by decide, by decide, by decide⟩

/-- Claim C10 (witness): the frame part of the theorem applied to the reachable node
and the missing hash "h1". -/
theorem C10_witness : BlockchainNode._finalize_block toyPrim nodeA1 1 "h1" = nodeA1 :=
  C10_finalize_missing_block.1 toyPrim nodeA1 1 "h1" (by decide)

theorem try_finalize_eq (st : ConsensusState) (h : Int) :
    st.try_finalize h =
      (match firstQuorum (tallyVotes ((alistGet? st.precommits h).getD []))
          (st.validator_set.length / 2 + 1) with
       | some bh =>
         match alistGet? st.finalized_blocks h with
         | some prev =>
           if prev ≠ "" ∧ prev ≠ bh then
             .error ("SAFETY VIOLATION: conflicting block at height " ++ toString h)
           else .ok ({ st with finalized_blocks := alistInsert st.finalized_blocks h bh },
                     some bh)
         | none => .ok ({ st with finalized_blocks := alistInsert st.finalized_blocks h bh },
                        some bh)
       | none => .ok (st, alistGet? st.finalized_blocks h)) := by
  unfold ConsensusState.try_finalize
  by_cases hE : ((alistGet? st.precommits h).getD []).isEmpty
  · rw [if_pos hE]
    have hnil : (alistGet? st.precommits h).getD [] = [] := by
      cases hv : (alistGet? st.precommits h).getD [] with
      | nil => rfl
      | cons a l => rw [hv] at hE; cases hE
    rw [hnil]
    cases alistGet? st.finalized_blocks h <;> rfl
  · rw [if_neg hE]
    cases hfq : firstQuorum (tallyVotes ((alistGet? st.precommits h).getD []))
        (st.validator_set.length / 2 + 1) with
    | some bh => rfl
    | none => cases hl : alistGet? st.finalized_blocks h <;> rfl

/-- Claim C1 (amended): `try_finalize` raises the safety violation iff the FIRST
block hash, in order of first appearance among the precommits at the height,
whose tally reaches the quorum `floor(N/2) + 1` differs from a non-empty hash
already recorded as finalized; every raised error is that message; when that
first quorum hash exists without such a conflict it is recorded (idempotently
when equal to the existing entry) and returned; and when no hash reaches the
quorum the existing finalized entry (or none) is returned unchanged. -/
theorem C1_try_finalize (st : ConsensusState) (h : Int) :
    (st.try_finalize h =
        .error ("SAFETY VIOLATION: conflicting block at height " ++ toString h) ↔
      conflictAt st h) ∧
    (∀ e, st.try_finalize h = .error e →
      e = "SAFETY VIOLATION: conflicting block at height " ++ toString h) ∧
    (∀ bh, firstQuorum (tallyVotes ((alistGet? st.precommits h).getD []))
        (st.validator_set.length / 2 + 1) = some bh → ¬ conflictAt st h →
      st.try_finalize h =
        .ok ({ st with finalized_blocks := alistInsert st.finalized_blocks h bh },
             some bh)) ∧
    (firstQuorum (tallyVotes ((alistGet? st.precommits h).getD []))
        (st.validator_set.length / 2 + 1) = none →
      st.try_finalize h = .ok (st, alistGet? st.finalized_blocks h)) := by
  rw [try_finalize_eq]
  generalize hfq : firstQuorum (tallyVotes ((alistGet? st.precommits h).getD []))
      (st.validator_set.length / 2 + 1) = fq
  cases fq with
  | none =>
    refine ⟨?_, ?_, ?_, fun _ => rfl⟩
    · refine iff_of_false (fun he => by cases he) ?_
      rintro ⟨bh, prev, hq, -, -, -⟩
      rw [hfq] at hq
      cases hq
    · intro e he
      cases he
    · intro bh hq
      cases hq
  | some bh =>
    generalize hlk : alistGet? st.finalized_blocks h = lk
    cases lk with
    | none =>
      dsimp only
      refine ⟨?_, ?_, ?_, ?_⟩
      · refine iff_of_false (fun he => by cases he) ?_
        rintro ⟨bh2, prev, hq, hl, -, -⟩
        rw [hlk] at hl
        cases hl
      · intro e he
        cases he
      · intro bh2 hq hnc
        cases hq
        rfl
      · intro hq
        cases hq
    | some prev =>
      dsimp only
      by_cases hcf : prev ≠ "" ∧ prev ≠ bh
      · rw [if_pos hcf]
        refine ⟨?_, ?_, ?_, ?_⟩
        · exact iff_of_true rfl ⟨bh, prev, hfq, hlk, hcf.1, hcf.2⟩
        · intro e he
          cases he
          rfl
        · intro bh2 hq hnc
          cases hq
          exact absurd ⟨bh, prev, hfq, hlk, hcf.1, hcf.2⟩ hnc
        · intro hq
          cases hq
      · rw [if_neg hcf]
        refine ⟨?_, ?_, ?_, ?_⟩
        · refine iff_of_false (fun he => by cases he) ?_
          rintro ⟨bh2, prev2, hq, hl, hne, hnb⟩
          rw [hfq] at hq
          cases hq
          rw [hlk] at hl
          cases hl
          exact absurd ⟨hne, hnb⟩ hcf
        · intro e he
          cases he
        · intro bh2 hq hnc
          cases hq
          rfl
        · intro hq
          cases hq

/-- Claim C1 (counterexample): in a one-validator state with precommits for "h1"
then "h2" and "h1" already finalized at height 1, the hash "h2" reaches the
quorum while a different hash is finalized — the claim demands a SAFETY
VIOLATION — yet `try_finalize` returns successfully, because it only examines
the first quorum hash in enumeration order. -/
theorem C1_counterexample :
    ConsensusState.try_finalize ceState 1 = .ok (ceState, some "h1") ∧
    majorityOf ceState ≤ countBH (preBucket ceState 1) "h2" ∧
    alistGet? ceState.finalized_blocks 1 = some "h1" ∧
    ("h1" : String) ≠ "h2" := ⟨by decide, by decide, by decide, by decide⟩

/-- Claim C1 (witness): under three validators, two precommits for "hX" reach the
quorum 2 with nothing finalized yet, so the amended theorem yields a recorded
and returned finalization. -/
theorem C1_witness :
    ConsensusState.try_finalize wSt 1 =
      .ok ({ wSt with finalized_blocks := alistInsert wSt.finalized_blocks 1 "hX" },
           some "hX") :=
  (C1_try_finalize wSt 1).2.2.1 "hX" (by decide)
    (fun hc => by
      obtain ⟨bh, prev, -, hlk, -⟩ := hc
      simp [wSt, alistGet?] at hlk)

/-- Claim C6: `receive_block` returns true exactly when the header hash is already
stored or the parent is stored, the proposer signature verifies under
"HEADER", and the re-executed state hash matches; an already-stored hash and
every rejection leave the node unchanged, and a fresh acceptance stores the
header and body under the header's hash. -/
theorem C6_receive_block (P : CryptoPrim) (n : BlockchainNode) (header : BlockHeader)
    (txs : List Transaction) :
    ((BlockchainNode.receive_block P n header txs).1 = true ↔
      (alistGet? n.blocks (header.hash P)).isSome = true ∨
      (∃ parent, alistGet? n.blocks header.parent_hash = some parent ∧
        Validator.verify P header.proposer header.signature header.encode "HEADER"
          n.chain_id = true ∧
        (build_block P parent txs n.key n.chain_id).1.state_hash = header.state_hash)) ∧
    ((alistGet? n.blocks (header.hash P)).isSome = true →
      (BlockchainNode.receive_block P n header txs).2 = n) ∧
    ((BlockchainNode.receive_block P n header txs).1 = false →
      (BlockchainNode.receive_block P n header txs).2 = n) ∧
    ((BlockchainNode.receive_block P n header txs).1 = true →
      (alistGet? n.blocks (header.hash P)).isSome = false →
      (BlockchainNode.receive_block P n header txs).2 =
        { n with blocks := alistInsert n.blocks (header.hash P) header,
                 block_bodies := alistInsert n.block_bodies (header.hash P) txs }) := by
  unfold BlockchainNode.receive_block
  cases hh : (alistGet? n.blocks (header.hash P)).isSome with
  | true =>
    rw [if_pos rfl]
    refine ⟨iff_of_true rfl (Or.inl rfl), fun _ => rfl, ?_, ?_⟩
    · intro hf
      cases hf
    · intro _ hf
      cases hf
  | false =>
    rw [if_neg Bool.false_ne_true]
    cases hp : alistGet? n.blocks header.parent_hash with
    | none =>
      dsimp only
      refine ⟨?_, ?_, fun _ => rfl, ?_⟩
      · refine iff_of_false (by simp) ?_
        rintro (hs | ⟨parent, hq, -, -⟩)
        · cases hs
        · cases hq
      · intro hf
        cases hf
      · intro hf
        cases hf
    | some parent =>
      dsimp only
      cases hv : Validator.verify P header.proposer header.signature header.encode
          "HEADER" n.chain_id with
      | false =>
        rw [if_pos Bool.false_ne_true]
        refine ⟨?_, ?_, fun _ => rfl, ?_⟩
        · refine iff_of_false (by simp) ?_
          rintro (hs | ⟨p2, hp2, hv2, -⟩)
          · cases hs
          · cases hp2
            cases hv2
        · intro hf
          cases hf
        · intro hf
          cases hf
      | true =>
        rw [if_neg (fun hf => hf rfl)]
        by_cases hsh : (build_block P parent txs n.key n.chain_id).1.state_hash =
            header.state_hash
        · rw [if_neg (fun hne => hne hsh)]
          refine ⟨iff_of_true rfl (Or.inr ⟨parent, rfl, rfl, hsh⟩), ?_, ?_, fun _ _ => rfl⟩
          · intro hf
            cases hf
          · intro hf
            cases hf
        · rw [if_pos hsh]
          refine ⟨?_, ?_, fun _ => rfl, ?_⟩
          · refine iff_of_false (by simp) ?_
            rintro (hs | ⟨p2, hp2, -, hsh2⟩)
            · cases hs
            · cases hp2
              exact hsh hsh2
          · intro hf
            cases hf
          · intro hf
            cases hf

/-- Claim C6 (witness): redelivering the stored genesis header short-circuits to
true and leaves the node unchanged. -/
theorem C6_witness :
    (BlockchainNode.receive_block toyPrim nodeA nodeA.genesis []).1 = true ∧
    (BlockchainNode.receive_block toyPrim nodeA nodeA.genesis []).2 = nodeA :=
  ⟨(C6_receive_block toyPrim nodeA nodeA.genesis []).1.mpr (Or.inl (by decide)),
   (C6_receive_block toyPrim nodeA nodeA.genesis []).2.1 (by decide)⟩

theorem handle_vote_false (P : CryptoPrim) (st : ConsensusState) (v : Vote)
    (c : ConsensusState) (hs : ConsensusState.handle_vote P st v = .ok (false, c)) :
    c = st := by
  unfold ConsensusState.handle_vote at hs
  by_cases h1 : v.validator ∉ st.validator_set
  · rw [if_pos h1] at hs
    simp at hs
    exact hs.symm
  · rw [if_neg h1] at hs
    by_cases h2 : ¬ Validator.verify P v.validator v.signature v.encode "VOTE"
        st.chain_id = true
    · rw [if_pos h2] at hs
      simp at hs
      exact hs.symm
    · rw [if_neg h2] at hs
      by_cases h3 : v.phase = "prevote"
      · rw [if_pos h3] at hs
        simp at hs
      · rw [if_neg h3] at hs
        by_cases h4 : v.phase = "precommit"
        · rw [if_pos h4] at hs
          cases htf : ConsensusState.try_finalize
              { st with precommits := alistPush st.precommits v.height v } v.height with
          | error e =>
            rw [htf] at hs
            cases hs
          | ok pr =>
            rw [htf] at hs
            obtain ⟨st2, r2⟩ := pr
            simp at hs
        · rw [if_neg h4] at hs
          simp at hs

theorem try_finalize_frame (st : ConsensusState) (h : Int) (st2 : ConsensusState)
    (r : Option String) (hs : st.try_finalize h = .ok (st2, r)) :
    st2.validator_set = st.validator_set ∧ st2.chain_id = st.chain_id ∧
    st2.prevotes = st.prevotes ∧ st2.precommits = st.precommits := by
  rw [try_finalize_eq] at hs
  generalize hq : firstQuorum (tallyVotes ((alistGet? st.precommits h).getD []))
      (st.validator_set.length / 2 + 1) = fq at hs
  cases fq with
  | none =>
    simp only [Except.ok.injEq, Prod.mk.injEq] at hs
    rw [← hs.1]
    exact ⟨rfl, rfl, rfl, rfl⟩
  | some bh =>
    generalize hlk : alistGet? st.finalized_blocks h = lk at hs
    cases lk with
    | none =>
      simp only [Except.ok.injEq, Prod.mk.injEq] at hs
      rw [← hs.1]
      exact ⟨rfl, rfl, rfl, rfl⟩
    | some prev =>
      dsimp only at hs
      by_cases hcf : prev ≠ "" ∧ prev ≠ bh
      · rw [if_pos hcf] at hs
        cases hs
      · rw [if_neg hcf] at hs
        simp only [Except.ok.injEq, Prod.mk.injEq] at hs
        rw [← hs.1]
        exact ⟨rfl, rfl, rfl, rfl⟩

theorem handle_vote_true (P : CryptoPrim) (st : ConsensusState) (v : Vote)
    (c : ConsensusState) (hs : ConsensusState.handle_vote P st v = .ok (true, c)) :
    v.validator ∈ st.validator_set ∧ c.validator_set = st.validator_set ∧
    ((v.phase = "prevote" ∧ c.prevotes = alistPush st.prevotes v.height v ∧
        c.precommits = st.precommits) ∨
     (v.phase = "precommit" ∧ c.precommits = alistPush st.precommits v.height v ∧
        c.prevotes = st.prevotes) ∨
     (v.phase ≠ "prevote" ∧ v.phase ≠ "precommit" ∧ c = st)) := by
  unfold ConsensusState.handle_vote at hs
  by_cases h1 : v.validator ∉ st.validator_set
  · rw [if_pos h1] at hs
    simp at hs
  · rw [if_neg h1] at hs
    rw [not_not] at h1
    by_cases h2 : ¬ Validator.verify P v.validator v.signature v.encode "VOTE"
        st.chain_id = true
    · rw [if_pos h2] at hs
      simp at hs
    · rw [if_neg h2] at hs
      by_cases h3 : v.phase = "prevote"
      · rw [if_pos h3] at hs
        simp only [Except.ok.injEq, Prod.mk.injEq, true_and] at hs
        rw [← hs]
        exact ⟨h1, rfl, Or.inl ⟨h3, rfl, rfl⟩⟩
      · rw [if_neg h3] at hs
        by_cases h4 : v.phase = "precommit"
        · rw [if_pos h4] at hs
          cases htf : ConsensusState.try_finalize
              { st with precommits := alistPush st.precommits v.height v } v.height with
          | error e =>
            rw [htf] at hs
            cases hs
          | ok pr =>
            rw [htf] at hs
            obtain ⟨stF, rF⟩ := pr
            simp only [Except.ok.injEq, Prod.mk.injEq, true_and] at hs
            obtain ⟨hvs, -, hprv, hprec⟩ := try_finalize_frame _ _ _ _ htf
            rw [← hs]
            exact ⟨h1, hvs, Or.inr (Or.inl ⟨h4, hprec, hprv⟩)⟩
        · rw [if_neg h4] at hs
          simp only [Except.ok.injEq, Prod.mk.injEq, true_and] at hs
          rw [← hs]
          exact ⟨h1, rfl, Or.inr (Or.inr ⟨h3, h4, rfl⟩)⟩

theorem finalize_block_frame (P : CryptoPrim) (n : BlockchainNode) (h : Int) (bh : String) :
    (BlockchainNode._finalize_block P n h bh).consensus = n.consensus ∧
    (BlockchainNode._finalize_block P n h bh).seen_votes = n.seen_votes := by
  unfold BlockchainNode._finalize_block
  cases alistGet? n.blocks bh <;> exact ⟨rfl, rfl⟩

theorem receive_vote_cases (P : CryptoPrim) (n : BlockchainNode) (v : Vote) (r : Bool)
    (m : BlockchainNode) (hs : BlockchainNode.receive_vote P n v = .ok (r, m)) :
    (r = false ∧ m = n) ∨
    (r = true ∧ BlockchainNode.voteId v ∉ n.seen_votes ∧
      ∃ c, ConsensusState.handle_vote P n.consensus v = .ok (true, c) ∧
        m.consensus = c ∧ m.seen_votes = n.seen_votes ++ [BlockchainNode.voteId v]) := by
  unfold BlockchainNode.receive_vote at hs
  by_cases hseen : BlockchainNode.voteId v ∈ n.seen_votes
  · rw [if_pos hseen] at hs
    simp only [Except.ok.injEq, Prod.mk.injEq] at hs
    exact Or.inl ⟨hs.1.symm, hs.2.symm⟩
  · rw [if_neg hseen] at hs
    cases hh : ConsensusState.handle_vote P n.consensus v with
    | error e =>
      rw [hh] at hs
      cases hs
    | ok pr =>
      rw [hh] at hs
      obtain ⟨b, c⟩ := pr
      cases b with
      | false =>
        simp only [Except.ok.injEq, Prod.mk.injEq] at hs
        refine Or.inl ⟨hs.1.symm, ?_⟩
        rw [← hs.2, handle_vote_false P n.consensus v c hh]
      | true =>
        dsimp only at hs
        cases hlk : alistGet? c.finalized_blocks v.height with
        | none =>
          rw [hlk] at hs
          simp only [Except.ok.injEq, Prod.mk.injEq] at hs
          exact Or.inr ⟨hs.1.symm, hseen, c, rfl, by rw [← hs.2], by rw [← hs.2]⟩
        | some fh =>
          rw [hlk] at hs
          dsimp only at hs
          by_cases hif : fh ≠ "" ∧ fh = v.block_hash
          · rw [if_pos hif] at hs
            simp only [Except.ok.injEq, Prod.mk.injEq] at hs
            refine Or.inr ⟨hs.1.symm, hseen, c, rfl, ?_, ?_⟩
            · rw [← hs.2, (finalize_block_frame P _ v.height fh).1]
            · rw [← hs.2, (finalize_block_frame P _ v.height fh).2]
          · rw [if_neg hif] at hs
            simp only [Except.ok.injEq, Prod.mk.injEq] at hs
            exact Or.inr ⟨hs.1.symm, hseen, c, rfl, by rw [← hs.2], by rw [← hs.2]⟩

theorem voteId_congr (w v : Vote) (h1 : w.validator = v.validator) (h2 : w.height = v.height)
    (h3 : w.phase = v.phase) (h4 : w.block_hash = v.block_hash) :
    BlockchainNode.voteId w = BlockchainNode.voteId v := by
  simp [BlockchainNode.voteId, h1, h2, h3, h4]

theorem mem_push_bucket (d : List (Int × List Vote)) (k h : Int) (x w : Vote)
    (hw : w ∈ (alistGet? (alistPush d k x) h).getD []) :
    w ∈ (alistGet? d h).getD [] ∨ (h = k ∧ w = x) := by
  by_cases hh : h = k
  · subst hh
    rw [alistGet?_push_self] at hw
    rcases List.mem_append.mp hw with h1 | h1
    · exact Or.inl h1
    · exact Or.inr ⟨rfl, List.mem_singleton.mp h1⟩
  · rw [alistGet?_push_other _ _ _ _ hh] at hw
    exact Or.inl hw

theorem nodupVB_push (d : List (Int × List Vote)) (k : Int) (x : Vote)
    (hold : ∀ h, nodupVB ((alistGet? d h).getD []))
    (hnew : ∀ w ∈ (alistGet? d k).getD [],
      ¬(w.validator = x.validator ∧ w.block_hash = x.block_hash)) :
    ∀ h, nodupVB ((alistGet? (alistPush d k x) h).getD []) := by
  intro h
  by_cases hh : h = k
  · subst hh
    rw [alistGet?_push_self]
    refine List.pairwise_append.mpr ⟨hold h, List.pairwise_singleton _ _, ?_⟩
    intro a ha b hb
    rw [List.mem_singleton.mp hb]
    exact hnew a ha
  · rw [alistGet?_push_other _ _ _ _ hh]
    exact hold h

theorem nodeInv_init (P : CryptoPrim) (node_id : String) (sk : Nat) (vs : List String)
    (ch : String) : NodeInv (BlockchainNode.init P node_id sk vs ch) := by
  constructor <;> intro h <;>
    simp [preBucket, prvBucket, BlockchainNode.init, alistGet?, nodupVB]

theorem nodeInv_step (P : CryptoPrim) (n : BlockchainNode) (v : Vote) (r : Bool)
    (m : BlockchainNode) (inv : NodeInv n)
    (hs : BlockchainNode.receive_vote P n v = .ok (r, m)) : NodeInv m := by
  rcases receive_vote_cases P n v r m hs with ⟨-, rfl⟩ | ⟨-, hseen, c, hhv, hcons, hseen2⟩
  · exact inv
  · obtain ⟨hmem, hvs, hcase⟩ := handle_vote_true P n.consensus v c hhv
    have seenMono : ∀ s, s ∈ n.seen_votes → s ∈ m.seen_votes := by
      intro s hs2
      rw [hseen2]
      exact List.mem_append_left _ hs2
    have hidIn : BlockchainNode.voteId v ∈ m.seen_votes := by
      rw [hseen2]
      exact List.mem_append_right _ (List.mem_singleton.mpr rfl)
    rcases hcase with ⟨hph, hprv, hprec⟩ | ⟨hph, hprec, hprv⟩ | ⟨hph1, hph2, hceq⟩
    · -- a prevote was pushed; precommits unchanged
      have hpreEq : ∀ h, preBucket m.consensus h = preBucket n.consensus h := by
        intro h
        simp only [preBucket, hcons, hprec]
      have hprvEq : ∀ h, prvBucket m.consensus h =
          (alistGet? (alistPush n.consensus.prevotes v.height v) h).getD [] := by
        intro h
        simp only [prvBucket, hcons, hprv]
      constructor
      · intro h w hw
        rw [hpreEq] at hw
        obtain ⟨a1, a2, a3, a4⟩ := inv.pre_mem h w hw
        exact ⟨a1, a2, by rw [hcons, hvs]; exact a3, seenMono _ a4⟩
      · intro h
        rw [hpreEq]
        exact inv.pre_nodup h
      · intro h w hw
        rw [hprvEq] at hw
        rcases mem_push_bucket _ _ _ _ _ hw with hold | ⟨hk, hwv⟩
        · obtain ⟨a1, a2, a3, a4⟩ := inv.prv_mem h w hold
          exact ⟨a1, a2, by rw [hcons, hvs]; exact a3, seenMono _ a4⟩
        · subst hk
          subst hwv
          exact ⟨rfl, hph, by rw [hcons, hvs]; exact hmem, hidIn⟩
      · intro h
        rw [hprvEq]
        refine nodupVB_push _ _ _ (fun h2 => inv.prv_nodup h2) ?_ h
        intro w hw hcontra
        obtain ⟨b1, b2, b3, b4⟩ := inv.prv_mem v.height w hw
        refine hseen ?_
        rw [← voteId_congr w v hcontra.1 b1 (b2.trans hph.symm) hcontra.2]
        exact b4
    · -- a precommit was pushed; prevotes unchanged
      have hprvEq : ∀ h, prvBucket m.consensus h = prvBucket n.consensus h := by
        intro h
        simp only [prvBucket, hcons, hprv]
      have hpreEq : ∀ h, preBucket m.consensus h =
          (alistGet? (alistPush n.consensus.precommits v.height v) h).getD [] := by
        intro h
        simp only [preBucket, hcons, hprec]
      constructor
      · intro h w hw
        rw [hpreEq] at hw
        rcases mem_push_bucket _ _ _ _ _ hw with hold | ⟨hk, hwv⟩
        · obtain ⟨a1, a2, a3, a4⟩ := inv.pre_mem h w hold
          exact ⟨a1, a2, by rw [hcons, hvs]; exact a3, seenMono _ a4⟩
        · subst hk
          subst hwv
          exact ⟨rfl, hph, by rw [hcons, hvs]; exact hmem, hidIn⟩
      · intro h
        rw [hpreEq]
        refine nodupVB_push _ _ _ (fun h2 => inv.pre_nodup h2) ?_ h
        intro w hw hcontra
        obtain ⟨b1, b2, b3, b4⟩ := inv.pre_mem v.height w hw
        refine hseen ?_
        rw [← voteId_congr w v hcontra.1 b1 (b2.trans hph.symm) hcontra.2]
        exact b4
      · intro h w hw
        rw [hprvEq] at hw
        obtain ⟨a1, a2, a3, a4⟩ := inv.prv_mem h w hw
        exact ⟨a1, a2, by rw [hcons, hvs]; exact a3, seenMono _ a4⟩
      · intro h
        rw [hprvEq]
        exact inv.prv_nodup h
    · -- unknown phase: consensus unchanged
      have hc2 : m.consensus = n.consensus := by rw [hcons, hceq]
      have hpreEq : ∀ h, preBucket m.consensus h = preBucket n.consensus h := by
        intro h
        simp only [preBucket, hc2]
      have hprvEq : ∀ h, prvBucket m.consensus h = prvBucket n.consensus h := by
        intro h
        simp only [prvBucket, hc2]
      constructor
      · intro h w hw
        rw [hpreEq] at hw
        obtain ⟨a1, a2, a3, a4⟩ := inv.pre_mem h w hw
        exact ⟨a1, a2, by rw [hc2]; exact a3, seenMono _ a4⟩
      · intro h
        rw [hpreEq]
        exact inv.pre_nodup h
      · intro h w hw
        rw [hprvEq] at hw
        obtain ⟨a1, a2, a3, a4⟩ := inv.prv_mem h w hw
        exact ⟨a1, a2, by rw [hc2]; exact a3, seenMono _ a4⟩
      · intro h
        rw [hprvEq]
        exact inv.prv_nodup h

theorem reachable_inv (P : CryptoPrim) (n : BlockchainNode) (hr : Reachable P n) :
    NodeInv n := by
  induction hr with
  | init node_id sk vs ch => exact nodeInv_init P node_id sk vs ch
  | vote n0 v r m hr0 hstep ih => exact nodeInv_step P n0 v r m ih hstep

theorem pairwise_validators (L : List Vote) (hnd : nodupVB L)
    (noeq : ∀ v1 ∈ L, ∀ v2 ∈ L, v1.validator = v2.validator →
      v1.block_hash = v2.block_hash) :
    (L.map (fun v => v.validator)).Nodup := by
  induction L with
  | nil => simp
  | cons a L ih =>
    rcases List.pairwise_cons.mp hnd with ⟨ha, hL⟩
    rw [List.map_cons, List.nodup_cons]
    constructor
    · intro hmem
      obtain ⟨b, hb, hbv⟩ := List.mem_map.mp hmem
      have hbh : a.block_hash = b.block_hash :=
        noeq a (List.mem_cons_self a L) b (List.mem_cons_of_mem a hb) hbv.symm
      exact ha b hb ⟨hbv.symm, hbh⟩
    · exact ih hL (fun v1 h1 v2 h2 =>
        noeq v1 (List.mem_cons_of_mem a h1) v2 (List.mem_cons_of_mem a h2))

/-- Claim C2 (amended): in every node state reachable through `receive_vote`, and at
every height at which no validator equivocates (no two stored precommits by
the same validator name different hashes), at most one block hash can reach
the quorum; the restriction is necessary, because the duplicate filter keys
on (validator, height, phase, block_hash) and therefore admits equivocating
precommits that drive two hashes to quorum — see the counterexample. -/
theorem C2_quorum_unique (P : CryptoPrim) (n : BlockchainNode) (hr : Reachable P n)
    (h : Int)
    (noeq : ∀ v1 ∈ preBucket n.consensus h, ∀ v2 ∈ preBucket n.consensus h,
      v1.validator = v2.validator → v1.block_hash = v2.block_hash)
    (bh1 bh2 : String)
    (q1 : majorityOf n.consensus ≤ countBH (preBucket n.consensus h) bh1)
    (q2 : majorityOf n.consensus ≤ countBH (preBucket n.consensus h) bh2) :
    bh1 = bh2 := by
  by_contra hne
  have inv := reachable_inv P n hr
  have hnd : nodupVB (preBucket n.consensus h) := inv.pre_nodup h
  have hmapnd : ((preBucket n.consensus h).map (fun v => v.validator)).Nodup :=
    pairwise_validators _ hnd noeq
  have hsub : ((preBucket n.consensus h).map (fun v => v.validator)) ⊆
      n.consensus.validator_set := by
    intro x hx
    obtain ⟨w, hw, hwx⟩ := List.mem_map.mp hx
    rw [← hwx]
    exact (inv.pre_mem h w hw).2.2.1
  have hlen : (preBucket n.consensus h).length ≤ n.consensus.validator_set.length := by
    have := (hmapnd.subperm hsub).length_le
    simpa using this
  have hcnt := countBH_pair_le (preBucket n.consensus h) bh1 bh2 hne
  unfold majorityOf at q1 q2
  omega

/-- Claim C2 (counterexample): the single toy validator delivers, through
`receive_vote` alone, precommits for the two different hashes "h1" and "h2"
at height 1 — both pass the duplicate filter, and in the reachable state both
hashes meet the quorum, contradicting the claim that at most one can. -/
theorem C2_counterexample :
    Reachable toyPrim nodeA2 ∧ ("h1" : String) ≠ "h2" ∧
    majorityOf nodeA2.consensus ≤ countBH (preBucket nodeA2.consensus 1) "h1" ∧
    majorityOf nodeA2.consensus ≤ countBH (preBucket nodeA2.consensus 1) "h2" := by
  refine ⟨?_, by decide, by decide, by decide⟩
  refine Reachable.vote nodeA1 voteH2 true nodeA2 ?_ (by decide)
  exact Reachable.vote nodeA voteH1 true nodeA1
    (Reachable.init "n" 7 [pubHex7] chainC) (by decide)

/-- Claim C2 (witness): the amended theorem applied to the equivocation-free state
after the single "h1" precommit. -/
theorem C2_witness : ("h1" : String) = "h1" :=
  C2_quorum_unique toyPrim nodeA1
    (Reachable.vote nodeA voteH1 true nodeA1
      (Reachable.init "n" 7 [pubHex7] chainC) (by decide))
    1 (by decide) "h1" "h1" (by decide) (by decide)

/-- Claim C5: after any delivery of a vote to a reachable node, delivering the same
vote again returns false and leaves the node (in particular all its consensus
tallies) unchanged, and the node's tally for that
(validator, height, phase, block_hash) tuple never exceeds 1. -/
theorem C5_idempotent (P : CryptoPrim) (n : BlockchainNode) (v : Vote) (r : Bool)
    (m : BlockchainNode) (hr : Reachable P n)
    (hs : BlockchainNode.receive_vote P n v = .ok (r, m)) :
    BlockchainNode.receive_vote P m v = .ok (false, m) ∧
    tallyOf m v.validator v.height v.phase v.block_hash ≤ 1 := by
  constructor
  · rcases receive_vote_cases P n v r m hs with ⟨hr0, rfl⟩ | ⟨-, -, c, -, -, hseen2⟩
    · rw [hr0] at hs
      exact hs
    · unfold BlockchainNode.receive_vote
      rw [if_pos (by
        rw [hseen2]
        exact List.mem_append_right _ (List.mem_singleton.mpr rfl))]
  · have invm := nodeInv_step P n v r m (reachable_inv P n hr) hs
    unfold tallyOf phaseBucket
    by_cases hp1 : v.phase = "prevote"
    · rw [if_pos hp1]
      exact countVB_le_one _ (invm.prv_nodup _) _ _
    · rw [if_neg hp1]
      by_cases hp2 : v.phase = "precommit"
      · rw [if_pos hp2]
        exact countVB_le_one _ (invm.pre_nodup _) _ _
      · rw [if_neg hp2]
        simp [countVB]

/-- Claim C5 (witness): redelivering the accepted "h1" precommit to the resulting
node returns false with the node unchanged, and its tally for the tuple is 1. -/
theorem C5_witness :
    BlockchainNode.receive_vote toyPrim nodeA1 voteH1 = .ok (false, nodeA1) ∧
    tallyOf nodeA1 voteH1.validator voteH1.height voteH1.phase voteH1.block_hash ≤ 1 :=
  C5_idempotent toyPrim nodeA voteH1 true nodeA1
    (Reachable.init "n" 7 [pubHex7] chainC) (by decide)

end BlockchainLab
